import Mathlib

/-!
Shallow embedding of `monitor_deepseek_positions.py` (a Playwright-based monitor
for a trading positions web page) as executable Lean definitions, together with
theorems settling the specification claims about it.

Python strings are modelled as `List Char` (ASCII-faithful), Python `float`
values as `ℚ` (exact decimal arithmetic), `None`-returning functions as
`Option`, and an uncaught exception as `Except Unit`.  The concrete regular
expressions of the source are deterministic (every quantified character class
is disjoint from what follows it), so each one is embedded as a direct
scanning function with Python `re.search` left-to-right, earliest-start
semantics.
-/

/-- Python whitespace (`str.strip`, regex `\s`) restricted to ASCII. -/
def isPySpace (c : Char) : Bool :=
  c == ' ' || c == '\t' || c == '\n' || c == '\r' || c == '\x0b' || c == '\x0c'

/-- Python `str.strip()` on ASCII text. -/
def pyStrip (s : List Char) : List Char :=
  ((s.dropWhile isPySpace).reverse.dropWhile isPySpace).reverse

/-- Python `str.replace(pat, rep)` for a pattern written as a character list:
all non-overlapping occurrences are replaced left to right, and scanning
resumes after each inserted replacement. -/
def replaceList (pat rep : List Char) : List Char → List Char
  | [] => []
  | c :: cs =>
    if pat.isPrefixOf (c :: cs) then
      rep ++ replaceList pat rep (cs.drop (pat.length - 1))
    else
      c :: replaceList pat rep cs
termination_by l => l.length
decreasing_by
  · simp only [List.length_cons, List.length_drop]
    omega
  · simp only [List.length_cons]
    omega

/-- The five entity strings produced by `escape_html`. -/
def ampEnt : List Char := "&amp;".toList

def ltEnt : List Char := "&lt;".toList

def gtEnt : List Char := "&gt;".toList

def quotEnt : List Char := "&quot;".toList

def aposEnt : List Char := "&#x27;".toList

/-- `escape_html` from the source: on a falsy (empty) input return `""`,
otherwise chain `str.replace` calls, the ampersand first. -/
def escape_html (s : List Char) : List Char :=
  if s = [] then []
  else
    replaceList ['\''] aposEnt
      (replaceList ['"'] quotEnt
        (replaceList ['>'] gtEnt
          (replaceList ['<'] ltEnt
            (replaceList ['&'] ampEnt s))))

/-- Modelled from the claim's decoding procedure: replace each produced entity
back with its character, the ampersand entity last. -/
def unescape_html (s : List Char) : List Char :=
  replaceList ampEnt ['&']
    (replaceList aposEnt ['\'']
      (replaceList quotEnt ['"']
        (replaceList gtEnt ['>']
          (replaceList ltEnt ['<'] s))))

/-- The per-character escaping code that the replace chain of `escape_html`
amounts to. -/
def escChar (c : Char) : List Char :=
  if c = '&' then ampEnt
  else if c = '<' then ltEnt
  else if c = '>' then gtEnt
  else if c = '"' then quotEnt
  else if c = '\'' then aposEnt
  else [c]

/-- Decoding stages used to trace `unescape_html` over escaped output:
`escChar1` is the block content after `&lt;` has been put back, and so on. -/
def escChar1 (c : Char) : List Char := if c = '<' then ['<'] else escChar c

def escChar2 (c : Char) : List Char := if c = '>' then ['>'] else escChar1 c

def escChar3 (c : Char) : List Char := if c = '"' then ['"'] else escChar2 c

def escChar4 (c : Char) : List Char := if c = '\'' then ['\''] else escChar3 c

def escChar5 (c : Char) : List Char := if c = '&' then ['&'] else escChar4 c

/-- The tails of the five entities: what must follow every `&` in escaped
output. -/
def entityTailList : List (List Char) :=
  ["amp;".toList, "lt;".toList, "gt;".toList, "quot;".toList, "#x27;".toList]

/-- `ampOk s` checks that every occurrence of `&` in `s` is the head of one of
the five entities produced by `escape_html`. -/
def ampOk : List Char → Bool
  | [] => true
  | c :: rest =>
    ((!(c == '&')) || entityTailList.any (fun e => e.isPrefixOf rest)) && ampOk rest

/-- `true` iff `c` is none of the four characters that `escape_html` must
remove (`&` is allowed only via `ampOk`). -/
def noBadChar (c : Char) : Bool :=
  !(c == '<' || c == '>' || c == '"' || c == '\'')

/-- Python regex `\d`-and-comma class `[0-9,]`. -/
def isDigitComma (c : Char) : Bool := c.isDigit || c == ','

/-- Greedy `[0-9,]+(?:\.[0-9]+)?`: return the captured token and the rest of
the input, or `none` when there is no leading digit-or-comma.  The optional
fraction is taken only when a `.` is immediately followed by a digit, exactly
as the greedy regex behaves. -/
def numTok (s : List Char) : Option (List Char × List Char) :=
  let ds := s.takeWhile isDigitComma
  let rest := s.dropWhile isDigitComma
  if ds = [] then none
  else
    match rest with
    | '.' :: r2 =>
      let fs := r2.takeWhile Char.isDigit
      if fs = [] then some (ds, rest)
      else some (ds ++ '.' :: fs, r2.dropWhile Char.isDigit)
    | _ => some (ds, rest)

/-- `re.search` semantics: try the anchored matcher at every start position,
earliest position first. -/
def reSearch {α : Type} (m : List Char → Option α) : List Char → Option α
  | [] => m []
  | c :: cs =>
    match m (c :: cs) with
    | some r => some r
    | none => reSearch m cs

/-- Consume an exact literal, returning the remaining input. -/
def matchLit : List Char → List Char → Option (List Char)
  | [], s => some s
  | _ :: _, [] => none
  | l :: ls, c :: cs => if c = l then matchLit ls cs else none

/-- Consume a literal case-insensitively (`re.IGNORECASE` over ASCII): the
literal is given in upper case and each text character is upper-cased before
comparison. -/
def matchLitCI : List Char → List Char → Option (List Char)
  | [], s => some s
  | _ :: _, [] => none
  | l :: ls, c :: cs => if c.toUpper = l then matchLitCI ls cs else none

/-- The greedy `[^\n$]*\$` segment of the aggregate-P&L patterns: consume
characters up to the first `$` (failing on a newline or end of input) and the
`$` itself. -/
def scanToDollar : List Char → Option (List Char)
  | [] => none
  | c :: cs =>
    if c = '$' then some cs
    else if c = '\n' then none
    else scanToDollar cs

/-- Anchored matcher for `UNREALIZED[^\n$]*\$\s*([0-9,]+(?:\.[0-9]+)?)` (and
the `UNREALISED` variant), parameterised by the literal.  The greedy
`[^\n$]*` cannot give back a `$`, so the match deterministically reaches the
first `$`; the capture group holds only the numeric token, so any sign in
front of the `$` is dropped. -/
def pnlAfterLit (lit : List Char) (s : List Char) : Option (List Char) := do
  let r1 ← matchLit lit s
  let r2 ← scanToDollar r1
  let (tok, _) ← numTok (r2.dropWhile isPySpace)
  return tok

/-- Anchored matcher for `UNREALIZED[^\n$]*([-+]?\$\s*[0-9,]+(?:\.[0-9]+)?)`.
The greedy `[^\n$]*` always runs to the first `$`, where the optional sign
matches empty; backtracking one character to let `[-+]` match would re-fail
at the very same `\$\s*[0-9,]+` position, so the captured sign is always
empty and the capture is `$`, the whitespace and the numeric token. -/
def pnlPat3 (s : List Char) : Option (List Char) := do
  let r1 ← matchLit "UNREALIZED".toList s
  let r2 ← scanToDollar r1
  let (tok, _) ← numTok (r2.dropWhile isPySpace)
  return '$' :: (r2.takeWhile isPySpace ++ tok)

/-- Numeric value of a decimal digit string (most significant first). -/
def natOfDigits (s : List Char) : Nat :=
  s.foldl (fun a c => a * 10 + (c.toNat - 48)) 0

/-- Magnitude part of Python `float()` on the token shapes reachable here:
digits with an optional fractional part, at least one digit overall. -/
def pyFloatMag (s : List Char) : Option ℚ :=
  let ds := s.takeWhile Char.isDigit
  match s.dropWhile Char.isDigit with
  | '.' :: fs =>
    let f2 := fs.takeWhile Char.isDigit
    if fs.dropWhile Char.isDigit = [] then
      if ds = [] ∧ f2 = [] then none
      else some (mkRat (natOfDigits ds * 10 ^ f2.length + natOfDigits f2) (10 ^ f2.length))
    else none
  | [] => if ds = [] then none else some ((natOfDigits ds : ℚ))
  | _ => none

/-- Python `float()` on an optionally signed decimal token. -/
def pyFloat (s : List Char) : Option ℚ :=
  match s with
  | '-' :: r => (pyFloatMag r).map (fun q => -q)
  | '+' :: r => pyFloatMag r
  | r => pyFloatMag r

/-- `val.replace("$", "").replace(",", "")` from the source. -/
def removeDollarComma (s : List Char) : List Char :=
  (s.filter (fun c => !(c == '$'))).filter (fun c => !(c == ','))

/-- One loop iteration of `extract_unrealized_pnl`: search one pattern and,
when it matched, clean and parse the captured text (`None` on either kind of
failure, which sends the Python loop to the next pattern). -/
def pnlStage (search : List Char → Option (List Char)) (up : List Char) : Option ℚ :=
  (search up).bind (fun cap => pyFloat (pyStrip (removeDollarComma cap)))

/-- `extract_unrealized_pnl` from the source: on falsy (empty) text return
`None`, otherwise upper-case the text and try the three patterns in order. -/
def extract_unrealized_pnl (text : List Char) : Option ℚ :=
  if text = [] then none
  else
    let up := text.map Char.toUpper
    ((pnlStage (reSearch (pnlAfterLit "UNREALIZED".toList)) up).orElse
      (fun _ => pnlStage (reSearch (pnlAfterLit "UNREALISED".toList)) up)).orElse
      (fun _ => pnlStage (reSearch pnlPat3) up)

/-- Anchored `Side:\s*(LONG|SHORT)` (case-sensitive, as in the source, where
it is nevertheless run against the upper-cased block). -/
def sideAnch (s : List Char) : Option (List Char) := do
  let r1 ← matchLit "Side:".toList s
  let r2 := r1.dropWhile isPySpace
  match matchLit "LONG".toList r2 with
  | some _ => return "LONG".toList
  | none =>
    match matchLit "SHORT".toList r2 with
    | some _ => return "SHORT".toList
    | none => none

/-- Anchored `Entry Price:\s*\$?([0-9,]+(?:\.[0-9]+)?)` (case-sensitive). -/
def entryPriceAnch (s : List Char) : Option (List Char) := do
  let r1 ← matchLit "Entry Price:".toList s
  let r2 := r1.dropWhile isPySpace
  let r3 := match r2 with
    | '$' :: r => r
    | r => r
  let (tok, _) ← numTok r3
  return tok

/-- Anchored `Leverage:\s*(\d+)\s*X` (case-sensitive). -/
def leverageAnch (s : List Char) : Option (List Char) := do
  let r1 ← matchLit "Leverage:".toList s
  let r2 := r1.dropWhile isPySpace
  let ds := r2.takeWhile Char.isDigit
  if ds = [] then none
  else
    match (r2.dropWhile Char.isDigit).dropWhile isPySpace with
    | 'X' :: _ => some ds
    | _ => none

/-- Anchored `Quantity:\s*([0-9,]+(?:\.[0-9]+)?)` (case-sensitive). -/
def quantityAnch (s : List Char) : Option (List Char) := do
  let r1 ← matchLit "Quantity:".toList s
  let (tok, _) ← numTok (r1.dropWhile isPySpace)
  return tok

/-- Anchored `Unrealized P&L:\s*([+-]?\$\s*[0-9,]+(?:\.[0-9]+)?)` with
`re.IGNORECASE`.  Unlike the aggregate extractor, the optional sign sits
right after the literal and whitespace, so it is captured when present; a
sign not followed by `$` makes the alternative fail (the empty-sign
alternative then requires `$` at the sign character and fails too). -/
def pnlPosAnch (s : List Char) : Option (List Char) := do
  let r1 ← matchLitCI "UNREALIZED P&L:".toList s
  let r2 := r1.dropWhile isPySpace
  match r2 with
  | '+' :: '$' :: r3 =>
    let (tok, _) ← numTok (r3.dropWhile isPySpace)
    return '+' :: '$' :: (r3.takeWhile isPySpace ++ tok)
  | '-' :: '$' :: r3 =>
    let (tok, _) ← numTok (r3.dropWhile isPySpace)
    return '-' :: '$' :: (r3.takeWhile isPySpace ++ tok)
  | '$' :: r3 =>
    let (tok, _) ← numTok (r3.dropWhile isPySpace)
    return '$' :: (r3.takeWhile isPySpace ++ tok)
  | _ => none

/-- The alternation `BTC|ETH|...|ORDI` from the source, in source order. -/
def tickerStrings : List (List Char) :=
  ["BTC".toList, "ETH".toList, "SOL".toList, "XRP".toList, "BNB".toList,
   "DOGE".toList, "ADA".toList, "AVAX".toList, "TON".toList, "LTC".toList,
   "DOT".toList, "LINK".toList, "ATOM".toList, "APE".toList, "NEAR".toList,
   "OP".toList, "ARB".toList, "FTM".toList, "SUI".toList, "SEI".toList,
   "PEPE".toList, "SHIB".toList, "XLM".toList, "ETC".toList, "BCH".toList,
   "APT".toList, "TIA".toList, "INJ".toList, "RUNE".toList, "UNI".toList,
   "MATIC".toList, "POL".toList, "WIF".toList, "ORDI".toList]

/-- Regex `\w` (ASCII). -/
def isWordChar (c : Char) : Bool := c.isAlphanum || c == '_'

/-- At one position: the first alternative that matches and is followed by a
word boundary (an alternative whose trailing boundary fails lets the next
one try, as the regex engine does). -/
def tickerAt (s : List Char) : Option (List Char) :=
  tickerStrings.findSome? (fun t =>
    match matchLit t s with
    | some r =>
      match r with
      | [] => some t
      | c :: _ => if isWordChar c then none else some t
    | none => none)

/-- `re.search` for `\b(BTC|...)\b`: earliest position whose preceding
character (tracked in the accumulator) is not a word character. -/
def symSearch (prevIsWord : Bool) : List Char → Option (List Char)
  | [] => none
  | c :: cs =>
    match (if prevIsWord then none else tickerAt (c :: cs)) with
    | some t => some t
    | none => symSearch (isWordChar c) cs

/-- Python `str.title()` on a single word. -/
def pyTitle (s : List Char) : List Char :=
  match s with
  | [] => []
  | c :: cs => c.toUpper :: cs.map Char.toLower

/-- The dict built for each valid block by `parse_positions`. -/
structure Position where
  symbol : List Char
  side : List Char
  leverage : List Char
  pnl_value : Option ℚ
  pnl_text : List Char
  entry_price : List Char
deriving DecidableEq, Repr

/-- The price heuristic of `parse_positions` (source lines 273-287), applied
to the captured entry price.  The source calls Python `float` on the capture
with commas removed, unguarded: `.error ()` models that uncaught
`ValueError` (the capture `[0-9,]+` can be all commas). -/
def heuristicPrice (ep : List Char) : Except Unit (List Char) :=
  match pyFloat (ep.filter (fun c => !(c == ','))) with
  | none => Except.error ()
  | some price =>
    if price < mkRat 1 2 then pure []
    else if mkRat 1 2 ≤ price ∧ price < 10 then pure "SOL".toList
    else if (1000 : ℚ) ≤ price ∧ price < 5000 then pure "ETH".toList
    else if (50000 : ℚ) ≤ price ∧ price < 150000 then pure "BTC".toList
    else pure []

/-- Symbol resolution per block: the explicit whole-word ticker when found,
otherwise (when an entry price was captured) the price heuristic. -/
def inferSymbol (sym_m entry_price_m : Option (List Char)) : Except Unit (List Char) :=
  let symbol0 : List Char := match sym_m with | some t => t | none => []
  match symbol0, entry_price_m with
  | [], some ep => heuristicPrice ep
  | s0, _ => pure s0

/-- The pure tail of the loop body of `parse_positions` (source lines
289-309): derive the remaining fields from the matches and keep the block
only if the P&L or the side matched. -/
def mkPositionRecord (side_m leverage_m pnl_m entry_price_m : Option (List Char))
    (symbol : List Char) : Option Position :=
  let side : List Char := match side_m with | some cap => pyTitle cap | none => []
  let leverage : List Char := match leverage_m with | some cap => cap ++ ['X'] | none => []
  let pnl_text : List Char := match pnl_m with
    | some cap => pyStrip (cap.filter (fun c => !(c == ' ')))
    | none => []
  let entry_price : List Char := match entry_price_m with | some cap => cap | none => []
  let pnl_value : Option ℚ :=
    if pnl_text = [] then none
    else pyFloat ((removeDollarComma pnl_text).filter (fun c => !(c == '+')))
  if pnl_m.isSome || side_m.isSome then
    some ⟨symbol, side, leverage, pnl_value, pnl_text, entry_price⟩
  else none

/-- The body of the `for block in position_blocks[1:]` loop of
`parse_positions`.  The source also matches `Quantity:\s*([0-9,]+(?:\.[0-9]+)?)`
into `quantity_m`, but that match is never used and no quantity is stored. -/
def parseBlock (block : List Char) : Except Unit (Option Position) :=
  let bu := block.map Char.toUpper
  (inferSymbol (symSearch false bu) (reSearch entryPriceAnch bu)).map
    (mkPositionRecord (reSearch sideAnch bu) (reSearch leverageAnch bu)
      (reSearch pnlPosAnch bu) (reSearch entryPriceAnch bu))

/-- One digit-or-more (`\d+`), returning the rest. -/
def digits1 (s : List Char) : Option (List Char) :=
  if s.takeWhile Char.isDigit = [] then none else some (s.dropWhile Char.isDigit)

/-- Expect one exact character. -/
def expectChar (c : Char) : List Char → Option (List Char)
  | [] => none
  | x :: xs => if x = c then some xs else none

/-- Anchored matcher for the split delimiter `Entry Time:\s*\d+:\d+:\d+`
(`re.IGNORECASE`), returning the rest of the input after the greedy match. -/
def tryEntryTime (s : List Char) : Option (List Char) := do
  let r1 ← matchLitCI "ENTRY TIME:".toList s
  let r2 ← digits1 (r1.dropWhile isPySpace)
  let r3 ← expectChar ':' r2
  let r4 ← digits1 r3
  let r5 ← expectChar ':' r4
  digits1 r5

/-- `re.split` scanning loop: find non-overlapping delimiter matches left to
right and collect the parts between them.  Recursion is on an explicit bound
(initialised to the input length) so the definition is structurally
recursive and kernel-reducible; a delimiter match always consumes at least
the eleven-character literal, so the bound dominates the input length
throughout and the exhaustion branch is unreachable. -/
def splitGo : Nat → List Char → List Char → List (List Char)
  | _, [], acc => [acc.reverse]
  | 0, c :: cs, acc => [acc.reverse ++ c :: cs]
  | n + 1, c :: cs, acc =>
    match tryEntryTime (c :: cs) with
    | some rest => acc.reverse :: splitGo n rest []
    | none => splitGo n cs (c :: acc)

/-- `re.split(r"Entry Time:\s*\d+:\d+:\d+", text, flags=re.IGNORECASE)`. -/
def splitPositions (text : List Char) : List (List Char) :=
  splitGo text.length text []

/-- The loop of `parse_positions` over the blocks after the first. -/
def collectBlocks : List (List Char) → Except Unit (List Position)
  | [] => pure []
  | b :: bs => do
    let r ← parseBlock b
    let rest ← collectBlocks bs
    match r with
    | some p => pure (p :: rest)
    | none => pure rest

/-- Sort key rank of the Python key tuple
`(r["pnl_value"] is None, -(r["pnl_value"] or 0.0))`: first component. -/
def posKeyRank (p : Position) : Nat := if p.pnl_value = none then 1 else 0

/-- Second component of the Python sort key. -/
def posKeyVal (p : Position) : ℚ := -(p.pnl_value.getD 0)

/-- Lexicographic comparison of the Python sort keys. -/
def posLe (a b : Position) : Bool :=
  decide (posKeyRank a < posKeyRank b) ||
    (posKeyRank a == posKeyRank b && decide (posKeyVal a ≤ posKeyVal b))

/-- Stable insertion of `x` in front of the first element it compares
less-or-equal to. -/
def insertPos (x : Position) : List Position → List Position
  | [] => [x]
  | y :: ys => if posLe x y then x :: y :: ys else y :: insertPos x ys

/-- Python `list.sort` with the key above.  `list.sort` is stable, and a
stable sort for a fixed total preorder is unique, so this stable insertion
sort computes exactly its result. -/
def sortPositions (l : List Position) : List Position :=
  l.foldr insertPos []

/-- `parse_positions` before its final sort: empty list on falsy text,
otherwise the loop over `position_blocks[1:]`. -/
def parse_positions_raw (text : List Char) : Except Unit (List Position) :=
  if text = [] then pure []
  else collectBlocks ((splitPositions text).drop 1)

/-- `parse_positions` from the source. -/
def parse_positions (text : List Char) : Except Unit (List Position) := do
  let rs ← parse_positions_raw text
  pure (sortPositions rs)

/-- Value stored in the per-position dict. -/
inductive FieldVal where
  | str (v : List Char)
  | num (v : Option ℚ)
deriving DecidableEq, Repr

/-- The dict literal appended for each valid block (source lines 302-309):
exactly these six keys, in this order. -/
def positionToDict (p : Position) : List (String × FieldVal) :=
  [("symbol", FieldVal.str p.symbol), ("side", FieldVal.str p.side),
   ("leverage", FieldVal.str p.leverage), ("pnl_value", FieldVal.num p.pnl_value),
   ("pnl_text", FieldVal.str p.pnl_text), ("entry_price", FieldVal.str p.entry_price)]

/-- The mutable loop state of `run_monitor` (`last_text`, `last_unrealized`). -/
structure MonState where
  last_text : Option (List Char)
  last_unrealized : Option ℚ
deriving DecidableEq, Repr

/-- The JSON payload printed and logged by `run_monitor`; the timestamp and
the fixed model name are not modelled (real time is outside the embedding). -/
structure Payload where
  active_positions : List Char
deriving DecidableEq, Repr

/-- CLI flags and optional-backend availability, resolved at startup. -/
structure Args where
  visual : Bool
  notify : Bool
  sound : Bool
  popup : Bool
  richAvail : Bool
  plyerAvail : Bool
  tkAvail : Bool
deriving DecidableEq, Repr

/-- The data the change branch of the poll loop computes for one detected
change (the spec's ChangeEvent). -/
structure ChangeEvent where
  previous_text : List Char
  current_text : List Char
  previous_pnl : Option ℚ
  current_pnl : Option ℚ
  delta : Option ℚ
deriving DecidableEq, Repr

/-- Observable emissions of one cycle of `run_monitor`, in program order. -/
inductive MonAction where
  | debugScreenshot
  | printWarnNoContent
  | printPayload (p : Payload)
  | snapshot
  | printInitialized
  | printNoChange
  | printUpdate (delta : Option ℚ)
  | printVisualHint
  | renderTable (ps : List Position)
  | logAppend (p : Payload)
  | writeHtml (ps : List Position)
  | notifyAlert (delta : Option ℚ)
  | printNotifyUnavailable
  | soundAlert
  | popupAlert (ps : List Position)
  | printPopupUnavailable
deriving DecidableEq, Repr

/-- `true` exactly on log-file append actions. -/
def isLogAppend : MonAction → Bool
  | MonAction.logAppend _ => true
  | _ => false

/-- The initial scrape of `run_monitor` (source lines 520-537), given the
text returned by the locator: the Priming-to-Steady transition.  The initial
payload is printed and a snapshot is taken; nothing is appended to the log
file. -/
def initStep (text : List Char) : MonState × List MonAction :=
  let warn : List MonAction :=
    if pyStrip text = [] then [MonAction.debugScreenshot, MonAction.printWarnNoContent]
    else []
  let st : MonState :=
    { last_text := some text, last_unrealized := extract_unrealized_pnl text }
  (st, warn ++ [MonAction.printPayload ⟨pyStrip text⟩, MonAction.snapshot])

/-- The terminal-visualization step of the change branch (source lines
583-589): on `--visual`, either a hint that `rich` is missing or, when the
parse yields a non-empty list, a rendered table.  The `parse_positions` call
here is unguarded in the source, so its exception propagates. -/
def visualActions (args : Args) (current : List Char) : Except Unit (List MonAction) :=
  if args.visual then
    (if args.richAvail then do
      let positions ← parse_positions current
      pure (if positions = [] then [] else [MonAction.renderTable positions])
    else pure [MonAction.printVisualHint])
  else pure []

/-- The HTML-export step (source lines 603-607): the whole step is wrapped
in `try/except pass`, so a parsing error only skips the export. -/
def htmlActions (current : List Char) : List MonAction :=
  match parse_positions current with
  | Except.ok ps => [MonAction.writeHtml ps]
  | Except.error _ => []

/-- The desktop-notification step (source lines 613-624). -/
def notifyActions (args : Args) (delta : Option ℚ) : List MonAction :=
  if args.notify then
    (if args.plyerAvail then [MonAction.notifyAlert delta]
     else [MonAction.printNotifyUnavailable])
  else []

/-- The sound-alert step (source lines 626-627). -/
def soundActions (args : Args) : List MonAction :=
  if args.sound then [MonAction.soundAlert] else []

/-- The popup step (source lines 629-657): formats the parsed positions for
the dialog; the `parse_positions` call here is unguarded in the source. -/
def popupActions (args : Args) (current : List Char) : Except Unit (List MonAction) :=
  if args.popup then
    (if args.tkAvail then do
      let positions ← parse_positions current
      pure [MonAction.popupAlert positions]
    else pure [MonAction.printPopupUnavailable])
  else pure []

/-- One iteration of the monitoring loop after a successful fetch of `text`
(source lines 558-662).  `Except` models the two unguarded
`parse_positions` calls (visual table, popup details), whose exception
would propagate out of the loop. -/
def pollStep (args : Args) (st : MonState) (text : List Char) :
    Except Unit (MonState × Option ChangeEvent × List MonAction) := do
  let current := pyStrip text
  match st.last_text with
  | none => pure (st, none, [MonAction.printInitialized])
  | some lt =>
    let previous := pyStrip lt
    if current = previous then
      pure (st, none, [MonAction.printNoChange])
    else
      let curr_unreal := extract_unrealized_pnl current
      let delta : Option ℚ := match st.last_unrealized, curr_unreal with
        | some p, some c => some (c - p)
        | _, _ => none
      let payload : Payload := ⟨current⟩
      let visualActs ← visualActions args current
      let popupActs ← popupActions args current
      let ev : ChangeEvent := ⟨previous, current, st.last_unrealized, curr_unreal, delta⟩
      let st2 : MonState := ⟨some current,
        match curr_unreal with | some v => some v | none => st.last_unrealized⟩
      pure (st2, some ev,
        [MonAction.printUpdate delta, MonAction.printPayload payload] ++ visualActs ++
          [MonAction.logAppend payload, MonAction.snapshot] ++ htmlActions current ++
          notifyActions args delta ++ soundActions args ++ popupActs)

/-- The result object of the in-page script of the locator (a dict with
`text` and `selector`, either possibly missing or empty). -/
structure EvalRes where
  text : Option (List Char)
  selector : Option (List Char)
deriving DecidableEq, Repr

/-- One page snapshot as the locator sees it: the DOM evaluation either
returns a result object (or `None`) or throws, and the whole-page
`inner_text("body")` fallback either returns text or throws. -/
structure PageSnapshot where
  evalResult : Except Unit (Option EvalRes)
  bodyText : Except Unit (List Char)

/-- `find_active_positions_container` (source lines 73-135): on a successful
evaluation, `(res or {}).get("text") or ""` and `selector or None`; if the
evaluation throws, fall back to the whole page's visible text with no
selector; if that throws too, return empty text and no selector.  The
function is total: no error escapes. -/
def find_active_positions_container (p : PageSnapshot) : List Char × Option (List Char) :=
  match p.evalResult with
  | Except.ok res =>
    let text : List Char := match res with
      | some r => match r.text with | some t => t | none => []
      | none => []
    let selector : List Char := match res with
      | some r => match r.selector with | some s => s | none => []
      | none => []
    (text, if selector = [] then none else some selector)
  | Except.error _ =>
    match p.bodyText with
    | Except.ok b => (b, none)
    | Except.error _ => ([], none)

theorem replaceList_single (c0 : Char) (rep : List Char) :
    ∀ s : List Char,
      replaceList [c0] rep s = s.flatMap (fun c => if c = c0 then rep else [c])
  | [] => by simp [replaceList]
  | c :: cs => by
    rw [replaceList]
    by_cases h : c = c0
    · rw [if_pos (by simp [List.isPrefixOf, h])]
      simp only [List.length_cons, List.length_nil, Nat.zero_add, Nat.sub_self,
        List.drop_zero]
      rw [replaceList_single c0 rep cs]
      simp [h]
    · have hnp : ¬([c0].isPrefixOf (c :: cs) = true) := by
        simp [List.isPrefixOf]
        exact fun hh => h hh.symm
      rw [if_neg hnp]
      rw [replaceList_single c0 rep cs]
      simp [h]

theorem prefix_of_append {α : Type} {l a b : List α} (h : l <+: a ++ b) :
    l <+: a ∨ a <+: l := by
  rcases le_or_lt l.length a.length with hle | hlt
  · left
    rw [List.prefix_iff_eq_take] at h ⊢
    conv_lhs => rw [h]
    exact List.take_append_of_le_length hle
  · right
    rw [List.prefix_iff_eq_take] at h ⊢
    conv_rhs => rw [h]
    rw [List.take_take, min_eq_left (le_of_lt hlt), List.take_left]

theorem replaceList_block (pat rep : List Char) :
    ∀ (b rest : List Char), ¬ pat <+: (b ++ rest) →
      (∀ a ∈ b.tail, pat.head? ≠ some a) →
      replaceList pat rep (b ++ rest) = b ++ replaceList pat rep rest
  | [], _, _, _ => rfl
  | [x], rest, hnp, _ => by
    have hx : ¬(pat.isPrefixOf (x :: rest) = true) := by
      rw [List.isPrefixOf_iff_prefix]
      exact hnp
    show replaceList pat rep (x :: rest) = x :: replaceList pat rep rest
    rw [replaceList, if_neg hx]
  | x :: y :: b'', rest, hnp, htail => by
    have hx : ¬(pat.isPrefixOf (x :: ((y :: b'') ++ rest)) = true) := by
      rw [List.isPrefixOf_iff_prefix]
      exact hnp
    have hnp' : ¬ pat <+: ((y :: b'') ++ rest) := by
      intro hp
      cases hpc : pat with
      | nil => exact hnp (by rw [hpc]; exact List.nil_prefix)
      | cons p pt =>
        have hp' : p :: pt <+: y :: (b'' ++ rest) := by
          rw [← hpc]
          exact hp
        rw [List.cons_prefix_cons] at hp'
        refine htail y (by simp) ?_
        rw [hpc, show p = y from hp'.1]
        rfl
    have htail' : ∀ a ∈ (y :: b'').tail, pat.head? ≠ some a := by
      intro a ha
      exact htail a (List.mem_cons_of_mem y ha)
    show replaceList pat rep (x :: ((y :: b'') ++ rest)) =
      x :: ((y :: b'') ++ replaceList pat rep rest)
    rw [replaceList, if_neg hx, replaceList_block pat rep (y :: b'') rest hnp' htail']

theorem replaceList_flatMap (pat rep : List Char) (f g : Char → List Char)
    (hpat : pat ≠ [])
    (hcase : ∀ c : Char, (f c = pat ∧ g c = rep) ∨
      (f c = g c ∧ (∀ a ∈ (f c).tail, pat.head? ≠ some a) ∧
        ¬ pat <+: f c ∧ ¬ f c <+: pat)) :
    ∀ s : List Char, replaceList pat rep (s.flatMap f) = s.flatMap g
  | [] => by simp [replaceList]
  | c :: cs => by
    rw [List.flatMap_cons, List.flatMap_cons]
    rcases hcase c with ⟨hfc, hgc⟩ | ⟨hfg, htl, hnpf, hfp⟩
    · rw [hfc, hgc]
      cases hpc : pat with
      | nil => exact absurd hpc hpat
      | cons p pt =>
        show replaceList (p :: pt) rep (p :: (pt ++ cs.flatMap f)) = rep ++ cs.flatMap g
        rw [replaceList]
        rw [if_pos (by
          rw [List.isPrefixOf_iff_prefix]
          exact List.prefix_append (p :: pt) (cs.flatMap f))]
        have hdrop : (pt ++ cs.flatMap f).drop ((p :: pt).length - 1) = cs.flatMap f := by
          simp only [List.length_cons, Nat.add_sub_cancel]
          exact List.drop_left pt _
        rw [hdrop, ← hpc, replaceList_flatMap pat rep f g hpat hcase cs]
    · have hnp : ¬ pat <+: (f c ++ cs.flatMap f) := by
        intro hp
        rcases prefix_of_append hp with h | h
        · exact hnpf h
        · exact hfp h
      rw [replaceList_block pat rep (f c) _ hnp htl,
        replaceList_flatMap pat rep f g hpat hcase cs, hfg]

theorem escape_chain_eq : ∀ s : List Char,
    replaceList ['\''] aposEnt
      (replaceList ['"'] quotEnt
        (replaceList ['>'] gtEnt
          (replaceList ['<'] ltEnt
            (replaceList ['&'] ampEnt s)))) = s.flatMap escChar := by
  intro s
  simp only [replaceList_single]
  induction s with
  | nil => rfl
  | cons c cs ih =>
    simp only [List.flatMap_cons, List.flatMap_append, ih]
    congr 1
    by_cases h1 : c = '&'
    · subst h1; rfl
    · by_cases h2 : c = '<'
      · subst h2; rfl
      · by_cases h3 : c = '>'
        · subst h3; rfl
        · by_cases h4 : c = '"'
          · subst h4; rfl
          · by_cases h5 : c = '\''
            · subst h5; rfl
            · simp [escChar, h1, h2, h3, h4, h5]

theorem escape_html_eq (s : List Char) : escape_html s = s.flatMap escChar := by
  by_cases hs : s = []
  · simp [escape_html, hs]
  · rw [escape_html, if_neg hs, escape_chain_eq]

theorem singleton_block_cond (x : Char) (pat : List Char)
    (hx : pat.head? ≠ some x) (hlen : 2 ≤ pat.length) :
    (∀ a ∈ ([x] : List Char).tail, pat.head? ≠ some a) ∧
      ¬ pat <+: [x] ∧ ¬ [x] <+: pat := by
  refine ⟨by simp, ?_, ?_⟩
  · intro h
    have := h.length_le
    simp only [List.length_cons, List.length_nil] at this
    omega
  · intro h
    cases pat with
    | nil => simp at hlen
    | cons p pt =>
      rw [List.cons_prefix_cons] at h
      exact hx (by rw [List.head?_cons, h.1])

theorem generic_block_cond (c : Char) (pat : List Char) (f g : Char → List Char)
    (hf : f c = [c]) (hg : g c = [c]) (hc : pat.head? ≠ some c) (hlen : 2 ≤ pat.length) :
    f c = g c ∧ (∀ a ∈ (f c).tail, pat.head? ≠ some a) ∧
      ¬ pat <+: f c ∧ ¬ f c <+: pat := by
  obtain ⟨t1, t2, t3⟩ := singleton_block_cond c pat hc hlen
  exact ⟨hg ▸ hf, by rw [hf]; exact t1, by rw [hf]; exact t2, by rw [hf]; exact t3⟩

theorem stage1_cases : ∀ c : Char, (escChar c = ltEnt ∧ escChar1 c = ['<']) ∨
    (escChar c = escChar1 c ∧ (∀ a ∈ (escChar c).tail, ltEnt.head? ≠ some a) ∧
      ¬ ltEnt <+: escChar c ∧ ¬ escChar c <+: ltEnt) := by
  intro c
  by_cases h2 : c = '<'
  · subst h2; left; exact ⟨by decide, by decide⟩
  by_cases h1 : c = '&'
  · subst h1; right; exact ⟨by decide, by decide, by decide, by decide⟩
  by_cases h3 : c = '>'
  · subst h3; right; exact ⟨by decide, by decide, by decide, by decide⟩
  by_cases h4 : c = '"'
  · subst h4; right; exact ⟨by decide, by decide, by decide, by decide⟩
  by_cases h5 : c = '\''
  · subst h5; right; exact ⟨by decide, by decide, by decide, by decide⟩
  right
  refine generic_block_cond c ltEnt escChar escChar1
    (by simp [escChar, h1, h2, h3, h4, h5])
    (by simp [escChar1, escChar, h1, h2, h3, h4, h5]) ?_ (by decide)
  intro hh
  rw [show ltEnt.head? = some '&' from by decide] at hh
  exact h1 (Option.some.inj hh).symm

theorem stage2_cases : ∀ c : Char, (escChar1 c = gtEnt ∧ escChar2 c = ['>']) ∨
    (escChar1 c = escChar2 c ∧ (∀ a ∈ (escChar1 c).tail, gtEnt.head? ≠ some a) ∧
      ¬ gtEnt <+: escChar1 c ∧ ¬ escChar1 c <+: gtEnt) := by
  intro c
  by_cases h3 : c = '>'
  · subst h3; left; exact ⟨by decide, by decide⟩
  by_cases h1 : c = '&'
  · subst h1; right; exact ⟨by decide, by decide, by decide, by decide⟩
  by_cases h2 : c = '<'
  · subst h2; right; exact ⟨by decide, by decide, by decide, by decide⟩
  by_cases h4 : c = '"'
  · subst h4; right; exact ⟨by decide, by decide, by decide, by decide⟩
  by_cases h5 : c = '\''
  · subst h5; right; exact ⟨by decide, by decide, by decide, by decide⟩
  right
  refine generic_block_cond c gtEnt escChar1 escChar2
    (by simp [escChar1, escChar, h1, h2, h3, h4, h5])
    (by simp [escChar2, escChar1, escChar, h1, h2, h3, h4, h5]) ?_ (by decide)
  intro hh
  rw [show gtEnt.head? = some '&' from by decide] at hh
  exact h1 (Option.some.inj hh).symm

theorem stage3_cases : ∀ c : Char, (escChar2 c = quotEnt ∧ escChar3 c = ['"']) ∨
    (escChar2 c = escChar3 c ∧ (∀ a ∈ (escChar2 c).tail, quotEnt.head? ≠ some a) ∧
      ¬ quotEnt <+: escChar2 c ∧ ¬ escChar2 c <+: quotEnt) := by
  intro c
  by_cases h4 : c = '"'
  · subst h4; left; exact ⟨by decide, by decide⟩
  by_cases h1 : c = '&'
  · subst h1; right; exact ⟨by decide, by decide, by decide, by decide⟩
  by_cases h2 : c = '<'
  · subst h2; right; exact ⟨by decide, by decide, by decide, by decide⟩
  by_cases h3 : c = '>'
  · subst h3; right; exact ⟨by decide, by decide, by decide, by decide⟩
  by_cases h5 : c = '\''
  · subst h5; right; exact ⟨by decide, by decide, by decide, by decide⟩
  right
  refine generic_block_cond c quotEnt escChar2 escChar3
    (by simp [escChar2, escChar1, escChar, h1, h2, h3, h4, h5])
    (by simp [escChar3, escChar2, escChar1, escChar, h1, h2, h3, h4, h5]) ?_ (by decide)
  intro hh
  rw [show quotEnt.head? = some '&' from by decide] at hh
  exact h1 (Option.some.inj hh).symm

theorem stage4_cases : ∀ c : Char, (escChar3 c = aposEnt ∧ escChar4 c = ['\'']) ∨
    (escChar3 c = escChar4 c ∧ (∀ a ∈ (escChar3 c).tail, aposEnt.head? ≠ some a) ∧
      ¬ aposEnt <+: escChar3 c ∧ ¬ escChar3 c <+: aposEnt) := by
  intro c
  by_cases h5 : c = '\''
  · subst h5; left; exact ⟨by decide, by decide⟩
  by_cases h1 : c = '&'
  · subst h1; right; exact ⟨by decide, by decide, by decide, by decide⟩
  by_cases h2 : c = '<'
  · subst h2; right; exact ⟨by decide, by decide, by decide, by decide⟩
  by_cases h3 : c = '>'
  · subst h3; right; exact ⟨by decide, by decide, by decide, by decide⟩
  by_cases h4 : c = '"'
  · subst h4; right; exact ⟨by decide, by decide, by decide, by decide⟩
  right
  refine generic_block_cond c aposEnt escChar3 escChar4
    (by simp [escChar3, escChar2, escChar1, escChar, h1, h2, h3, h4, h5])
    (by simp [escChar4, escChar3, escChar2, escChar1, escChar, h1, h2, h3, h4, h5]) ?_
    (by decide)
  intro hh
  rw [show aposEnt.head? = some '&' from by decide] at hh
  exact h1 (Option.some.inj hh).symm

theorem stage5_cases : ∀ c : Char, (escChar4 c = ampEnt ∧ escChar5 c = ['&']) ∨
    (escChar4 c = escChar5 c ∧ (∀ a ∈ (escChar4 c).tail, ampEnt.head? ≠ some a) ∧
      ¬ ampEnt <+: escChar4 c ∧ ¬ escChar4 c <+: ampEnt) := by
  intro c
  by_cases h1 : c = '&'
  · subst h1; left; exact ⟨by decide, by decide⟩
  by_cases h2 : c = '<'
  · subst h2; right; exact ⟨by decide, by decide, by decide, by decide⟩
  by_cases h3 : c = '>'
  · subst h3; right; exact ⟨by decide, by decide, by decide, by decide⟩
  by_cases h4 : c = '"'
  · subst h4; right; exact ⟨by decide, by decide, by decide, by decide⟩
  by_cases h5 : c = '\''
  · subst h5; right; exact ⟨by decide, by decide, by decide, by decide⟩
  right
  refine generic_block_cond c ampEnt escChar4 escChar5
    (by simp [escChar4, escChar3, escChar2, escChar1, escChar, h1, h2, h3, h4, h5])
    (by simp [escChar5, escChar4, escChar3, escChar2, escChar1, escChar,
      h1, h2, h3, h4, h5]) ?_ (by decide)
  intro hh
  rw [show ampEnt.head? = some '&' from by decide] at hh
  exact h1 (Option.some.inj hh).symm

theorem escChar5_eq (c : Char) : escChar5 c = [c] := by
  by_cases h1 : c = '&'
  · subst h1; rfl
  by_cases h2 : c = '<'
  · subst h2; rfl
  by_cases h3 : c = '>'
  · subst h3; rfl
  by_cases h4 : c = '"'
  · subst h4; rfl
  by_cases h5 : c = '\''
  · subst h5; rfl
  simp [escChar5, escChar4, escChar3, escChar2, escChar1, escChar, h1, h2, h3, h4, h5]

theorem unescape_escape (s : List Char) : unescape_html (escape_html s) = s := by
  rw [escape_html_eq, unescape_html]
  rw [replaceList_flatMap ltEnt ['<'] escChar escChar1 (by decide) stage1_cases s]
  rw [replaceList_flatMap gtEnt ['>'] escChar1 escChar2 (by decide) stage2_cases s]
  rw [replaceList_flatMap quotEnt ['"'] escChar2 escChar3 (by decide) stage3_cases s]
  rw [replaceList_flatMap aposEnt ['\''] escChar3 escChar4 (by decide) stage4_cases s]
  rw [replaceList_flatMap ampEnt ['&'] escChar4 escChar5 (by decide) stage5_cases s]
  induction s with
  | nil => rfl
  | cons c cs ih =>
    rw [List.flatMap_cons, escChar5_eq, ih]
    rfl

theorem ampOk_append_of_noAmp : ∀ (a t : List Char), (∀ c ∈ a, c ≠ '&') →
    ampOk (a ++ t) = ampOk t
  | [], _, _ => rfl
  | c :: a', t, h => by
    have hc : c ≠ '&' := h c (by simp)
    show ampOk (c :: (a' ++ t)) = ampOk t
    rw [ampOk]
    have : (c == '&') = false := by
      simp [hc]
    rw [this]
    simp only [Bool.not_false, Bool.true_or, Bool.true_and]
    exact ampOk_append_of_noAmp a' t (fun x hx => h x (List.mem_cons_of_mem c hx))

theorem ampOk_entity_append (tl t : List Char) (h1 : tl ∈ entityTailList)
    (h2 : ∀ c ∈ tl, c ≠ '&') : ampOk (('&' :: tl) ++ t) = ampOk t := by
  show ampOk ('&' :: (tl ++ t)) = ampOk t
  rw [ampOk]
  have hany : entityTailList.any (fun e => e.isPrefixOf (tl ++ t)) = true := by
    refine List.any_eq_true.mpr ⟨tl, h1, ?_⟩
    rw [List.isPrefixOf_iff_prefix]
    exact List.prefix_append tl t
  rw [hany]
  simp only [Bool.or_true, Bool.true_and]
  exact ampOk_append_of_noAmp tl t h2

theorem ampOk_escape : ∀ s : List Char, ampOk (s.flatMap escChar) = true
  | [] => rfl
  | c :: cs => by
    rw [List.flatMap_cons]
    by_cases h1 : c = '&'
    · subst h1
      rw [show escChar '&' = '&' :: "amp;".toList from by decide]
      rw [ampOk_entity_append "amp;".toList _ (by decide) (by decide)]
      exact ampOk_escape cs
    by_cases h2 : c = '<'
    · subst h2
      rw [show escChar '<' = '&' :: "lt;".toList from by decide]
      rw [ampOk_entity_append "lt;".toList _ (by decide) (by decide)]
      exact ampOk_escape cs
    by_cases h3 : c = '>'
    · subst h3
      rw [show escChar '>' = '&' :: "gt;".toList from by decide]
      rw [ampOk_entity_append "gt;".toList _ (by decide) (by decide)]
      exact ampOk_escape cs
    by_cases h4 : c = '"'
    · subst h4
      rw [show escChar '"' = '&' :: "quot;".toList from by decide]
      rw [ampOk_entity_append "quot;".toList _ (by decide) (by decide)]
      exact ampOk_escape cs
    by_cases h5 : c = '\''
    · subst h5
      rw [show escChar '\'' = '&' :: "#x27;".toList from by decide]
      rw [ampOk_entity_append "#x27;".toList _ (by decide) (by decide)]
      exact ampOk_escape cs
    rw [show escChar c = [c] from by simp [escChar, h1, h2, h3, h4, h5]]
    rw [ampOk_append_of_noAmp [c] _ (by intro x hx; simp at hx; rw [hx]; exact h1)]
    exact ampOk_escape cs

theorem noBad_escape (s : List Char) : (escape_html s).all noBadChar = true := by
  rw [escape_html_eq, List.all_eq_true]
  intro x hx
  rw [List.mem_flatMap] at hx
  obtain ⟨c, _, hxc⟩ := hx
  by_cases h1 : c = '&'
  · subst h1
    exact (by decide : ∀ y ∈ escChar '&', noBadChar y = true) x hxc
  by_cases h2 : c = '<'
  · subst h2
    exact (by decide : ∀ y ∈ escChar '<', noBadChar y = true) x hxc
  by_cases h3 : c = '>'
  · subst h3
    exact (by decide : ∀ y ∈ escChar '>', noBadChar y = true) x hxc
  by_cases h4 : c = '"'
  · subst h4
    exact (by decide : ∀ y ∈ escChar '"', noBadChar y = true) x hxc
  by_cases h5 : c = '\''
  · subst h5
    exact (by decide : ∀ y ∈ escChar '\'', noBadChar y = true) x hxc
  rw [show escChar c = [c] from by simp [escChar, h1, h2, h3, h4, h5]] at hxc
  simp only [List.mem_singleton] at hxc
  subst hxc
  simp [noBadChar, h2, h3, h4, h5]

/-- C10: `escape_html` is an injective HTML-escaping function: its output
contains no occurrence of `<`, `>`, `"` or `'` and no `&` except as the head
of one of the five produced entities, and replacing the entities back with
their characters (ampersand last) recovers the original string exactly. -/
theorem claim_C10_escape_html :
    (∀ s : List Char, (escape_html s).all noBadChar = true) ∧
    (∀ s : List Char, ampOk (escape_html s) = true) ∧
    (∀ s : List Char, unescape_html (escape_html s) = s) ∧
    (∀ s t : List Char, escape_html s = escape_html t → s = t) := by
  refine ⟨noBad_escape, ?_, unescape_escape, ?_⟩
  · intro s
    rw [escape_html_eq]
    exact ampOk_escape s
  · intro s t h
    have h2 := congrArg unescape_html h
    rwa [unescape_escape, unescape_escape] at h2

/-- Witness for C10 at concrete inputs. -/
theorem claim_C10_escape_html_witness :
    unescape_html (escape_html "a<b&c".toList) = "a<b&c".toList ∧
      "x&y".toList = "x&y".toList :=
  ⟨claim_C10_escape_html.2.2.1 "a<b&c".toList,
    claim_C10_escape_html.2.2.2 "x&y".toList "x&y".toList rfl⟩

theorem except_bind_ok {α β : Type} (x : Except Unit α) (f : α → Except Unit β) (b : β) :
    (x >>= f) = Except.ok b ↔ ∃ a, x = Except.ok a ∧ f a = Except.ok b := by
  cases x with
  | ok a => simp [Bind.bind, Except.bind]
  | error e => simp [Bind.bind, Except.bind]

theorem except_map_ok {α β : Type} (x : Except Unit α) (f : α → β) (b : β) :
    x.map f = Except.ok b ↔ ∃ a, x = Except.ok a ∧ f a = b := by
  cases x <;> simp [Except.map]

theorem length_insertPos (x : Position) :
    ∀ l, (insertPos x l).length = l.length + 1
  | [] => rfl
  | y :: ys => by
    rw [insertPos]
    by_cases h : posLe x y = true
    · simp [h]
    · simp [h, length_insertPos x ys]

theorem length_sortPositions : ∀ l, (sortPositions l).length = l.length
  | [] => rfl
  | x :: xs => by
    show (insertPos x (sortPositions xs)).length = xs.length + 1
    rw [length_insertPos, length_sortPositions xs]

theorem mem_insertPos (a x : Position) : ∀ l, a ∈ insertPos x l ↔ a = x ∨ a ∈ l
  | [] => by simp [insertPos]
  | y :: ys => by
    rw [insertPos]
    by_cases h : posLe x y = true
    · simp [h]
    · simp [h, mem_insertPos a x ys]
      tauto

theorem mem_sortPositions (a : Position) : ∀ l, a ∈ sortPositions l ↔ a ∈ l
  | [] => Iff.rfl
  | x :: xs => by
    show a ∈ insertPos x (sortPositions xs) ↔ _
    rw [mem_insertPos, mem_sortPositions a xs]
    simp

theorem posLe_total (a b : Position) : posLe a b = true ∨ posLe b a = true := by
  rw [posLe, posLe]
  rcases Nat.lt_trichotomy (posKeyRank a) (posKeyRank b) with h | h | h
  · left
    simp [h]
  · rcases le_total (posKeyVal a) (posKeyVal b) with hv | hv
    · left
      simp [h, hv]
    · right
      simp [h.symm, hv]
  · right
    simp [h]

theorem posLe_trans (a b c : Position) (h1 : posLe a b = true) (h2 : posLe b c = true) :
    posLe a c = true := by
  rw [posLe] at h1 h2 ⊢
  simp only [Bool.or_eq_true, Bool.and_eq_true, decide_eq_true_eq, beq_iff_eq] at h1 h2 ⊢
  rcases h1 with h1 | ⟨h1e, h1v⟩ <;> rcases h2 with h2 | ⟨h2e, h2v⟩
  · left
    omega
  · left
    omega
  · left
    omega
  · right
    exact ⟨h1e.trans h2e, le_trans h1v h2v⟩

theorem pairwise_insertPos (x : Position) :
    ∀ l, List.Pairwise (fun a b => posLe a b = true) l →
      List.Pairwise (fun a b => posLe a b = true) (insertPos x l)
  | [], _ => by simp [insertPos]
  | y :: ys, h => by
    rw [insertPos]
    rcases List.pairwise_cons.mp h with ⟨hy, hys⟩
    by_cases hle : posLe x y = true
    · rw [if_pos hle]
      refine List.pairwise_cons.mpr ⟨?_, h⟩
      intro b hb
      rcases List.mem_cons.mp hb with rfl | hb
      · exact hle
      · exact posLe_trans x y b hle (hy b hb)
    · rw [if_neg hle]
      refine List.pairwise_cons.mpr ⟨?_, pairwise_insertPos x ys hys⟩
      intro b hb
      rcases (mem_insertPos b x ys).mp hb with hbx | hb
      · subst hbx
        rcases posLe_total b y with h' | h'
        · exact absurd h' hle
        · exact h'
      · exact hy b hb

theorem sorted_sortPositions :
    ∀ l, List.Pairwise (fun a b => posLe a b = true) (sortPositions l)
  | [] => List.Pairwise.nil
  | x :: xs => pairwise_insertPos x (sortPositions xs) (sorted_sortPositions xs)

theorem filter_insertPos (x : Position) (pred : Position → Bool)
    (hpred : ∀ y, pred y = true → pred x = true → posLe x y = true) :
    ∀ l, (insertPos x l).filter pred =
      if pred x then x :: l.filter pred else l.filter pred
  | [] => by
    rw [insertPos, List.filter_cons]
  | y :: ys => by
    rw [insertPos]
    by_cases hle : posLe x y = true
    · rw [if_pos hle, List.filter_cons]
    · rw [if_neg hle, List.filter_cons, List.filter_cons]
      by_cases hy : pred y = true
      · have hx : pred x = false := by
          by_contra hx'
          exact hle (hpred y hy (by revert hx'; cases pred x <;> simp))
        rw [filter_insertPos x pred hpred ys]
        simp [hy, hx]
      · rw [filter_insertPos x pred hpred ys]
        have hy' : pred y = false := by revert hy; cases pred y <;> simp
        by_cases hx : pred x = true
        · simp [hy', hx]
        · simp [hy', hx]

theorem filter_sortPositions (pred : Position → Bool)
    (hpred : ∀ x y, pred x = true → pred y = true → posLe x y = true) :
    ∀ l, (sortPositions l).filter pred = l.filter pred
  | [] => rfl
  | x :: xs => by
    show (insertPos x (sortPositions xs)).filter pred = _
    rw [filter_insertPos x pred (fun y hy hx => hpred x y hx hy),
      filter_sortPositions pred hpred xs, List.filter_cons]

theorem collectBlocks_length :
    ∀ (bs : List (List Char)) (rs : List Position),
      collectBlocks bs = Except.ok rs → rs.length ≤ bs.length
  | [], rs, h => by
    simp [collectBlocks, pure, Except.pure] at h
    simp [← h]
  | b :: bs, rs, h => by
    rw [collectBlocks] at h
    rw [except_bind_ok] at h
    obtain ⟨r, hr, h⟩ := h
    rw [except_bind_ok] at h
    obtain ⟨rest, hrest, h⟩ := h
    have hlen := collectBlocks_length bs rest hrest
    cases r with
    | some p =>
      simp only [pure, Except.pure, Except.ok.injEq] at h
      rw [← h]
      simp only [List.length_cons]
      omega
    | none =>
      simp only [pure, Except.pure, Except.ok.injEq] at h
      rw [← h]
      simp only [List.length_cons]
      omega

theorem collectBlocks_mem :
    ∀ (bs : List (List Char)) (rs : List Position) (p : Position),
      collectBlocks bs = Except.ok rs → p ∈ rs →
      ∃ b ∈ bs, parseBlock b = Except.ok (some p)
  | [], rs, p, h, hp => by
    simp [collectBlocks, pure, Except.pure] at h
    rw [h] at hp
    simp at hp
  | b :: bs, rs, p, h, hp => by
    rw [collectBlocks] at h
    rw [except_bind_ok] at h
    obtain ⟨r, hr, h⟩ := h
    rw [except_bind_ok] at h
    obtain ⟨rest, hrest, h⟩ := h
    cases r with
    | some q =>
      simp only [pure, Except.pure, Except.ok.injEq] at h
      rw [← h] at hp
      rcases List.mem_cons.mp hp with rfl | hp
      · exact ⟨b, by simp, hr⟩
      · obtain ⟨b', hb', hpb'⟩ := collectBlocks_mem bs rest p hrest hp
        exact ⟨b', by simp [hb'], hpb'⟩
    | none =>
      simp only [pure, Except.pure, Except.ok.injEq] at h
      rw [← h] at hp
      obtain ⟨b', hb', hpb'⟩ := collectBlocks_mem bs rest p hrest hp
      exact ⟨b', by simp [hb'], hpb'⟩

theorem reSearch_some {α : Type} (m : List Char → Option α) :
    ∀ (s : List Char) (v : α), reSearch m s = some v → ∃ t, m t = some v
  | [], v, h => ⟨[], by simpa [reSearch] using h⟩
  | c :: cs, v, h => by
    cases hm : m (c :: cs) with
    | some r =>
      simp only [reSearch, hm] at h
      exact ⟨c :: cs, by rw [hm, h]⟩
    | none =>
      simp only [reSearch, hm] at h
      exact reSearch_some m cs v h

theorem sideAnch_cap (s cap : List Char) (h : sideAnch s = some cap) :
    cap = "LONG".toList ∨ cap = "SHORT".toList := by
  rw [sideAnch, Option.bind_eq_bind, Option.bind_eq_some] at h
  obtain ⟨r1, _, h⟩ := h
  dsimp only at h
  split at h
  · simp only [pure, Option.some.injEq] at h
    left
    exact h.symm
  · split at h
    · simp only [pure, Option.some.injEq] at h
      right
      exact h.symm
    · simp at h

theorem pnlPosAnch_dollar (s cap : List Char) (h : pnlPosAnch s = some cap) :
    '$' ∈ cap := by
  rw [pnlPosAnch, Option.bind_eq_bind, Option.bind_eq_some] at h
  obtain ⟨r1, _, h⟩ := h
  dsimp only at h
  split at h
  · rw [Option.bind_eq_bind, Option.bind_eq_some] at h
    obtain ⟨⟨tok, rest⟩, _, h⟩ := h
    simp only [pure, Option.some.injEq] at h
    rw [← h]
    simp
  · rw [Option.bind_eq_bind, Option.bind_eq_some] at h
    obtain ⟨⟨tok, rest⟩, _, h⟩ := h
    simp only [pure, Option.some.injEq] at h
    rw [← h]
    simp
  · rw [Option.bind_eq_bind, Option.bind_eq_some] at h
    obtain ⟨⟨tok, rest⟩, _, h⟩ := h
    simp only [pure, Option.some.injEq] at h
    rw [← h]
    simp
  · simp at h

theorem mem_dropWhile_of_neg {a : Char} (p : Char → Bool) (hpa : p a = false) :
    ∀ l : List Char, a ∈ l → a ∈ l.dropWhile p
  | [], h => by simp at h
  | x :: xs, h => by
    rw [List.dropWhile_cons]
    by_cases hx : p x = true
    · rw [if_pos hx]
      rcases List.mem_cons.mp h with rfl | h'
      · rw [hpa] at hx
        simp at hx
      · exact mem_dropWhile_of_neg p hpa xs h'
    · rw [if_neg hx]
      exact h

theorem mem_pyStrip {a : Char} (l : List Char) (ha : a ∈ l) (hsp : isPySpace a = false) :
    a ∈ pyStrip l := by
  rw [pyStrip, List.mem_reverse]
  refine mem_dropWhile_of_neg isPySpace hsp _ ?_
  rw [List.mem_reverse]
  exact mem_dropWhile_of_neg isPySpace hsp l ha

theorem mkPositionRecord_some (side_m leverage_m pnl_m entry_price_m : Option (List Char))
    (symbol : List Char) (p : Position)
    (hside : ∀ cap, side_m = some cap → cap = "LONG".toList ∨ cap = "SHORT".toList)
    (hpnl : ∀ cap, pnl_m = some cap → '$' ∈ cap)
    (h : mkPositionRecord side_m leverage_m pnl_m entry_price_m symbol = some p) :
    p.side ≠ [] ∨ p.pnl_text ≠ [] := by
  rw [mkPositionRecord.eq_def] at h
  dsimp only at h
  by_cases hcond : (pnl_m.isSome || side_m.isSome) = true
  · rw [if_pos hcond] at h
    simp only [Option.some.injEq] at h
    subst h
    cases hs : side_m with
    | some cap =>
      left
      show pyTitle cap ≠ []
      rcases hside cap hs with h1 | h1 <;> rw [h1] <;> decide
    | none =>
      right
      have hps : pnl_m.isSome = true := by
        rw [hs] at hcond
        simpa using hcond
      obtain ⟨cap, hc⟩ := Option.isSome_iff_exists.mp hps
      rw [hc]
      show pyStrip (cap.filter (fun c => !(c == ' '))) ≠ []
      have hdollar : '$' ∈ cap := hpnl cap hc
      refine List.ne_nil_of_mem (a := '$') ?_
      refine mem_pyStrip _ ?_ (by decide)
      rw [List.mem_filter]
      exact ⟨hdollar, by decide⟩
  · rw [if_neg hcond] at h
    simp at h

theorem parse_positions_shape (text : List Char) (res : List Position)
    (h : parse_positions text = Except.ok res) :
    ∃ rs, parse_positions_raw text = Except.ok rs ∧ res = sortPositions rs := by
  rw [parse_positions] at h
  rw [except_bind_ok] at h
  obtain ⟨rs, hraw, h⟩ := h
  simp only [pure, Except.pure, Except.ok.injEq] at h
  exact ⟨rs, hraw, h.symm⟩

theorem parseBlock_valid (b : List Char) (p : Position)
    (h : parseBlock b = Except.ok (some p)) : p.side ≠ [] ∨ p.pnl_text ≠ [] := by
  rw [parseBlock] at h
  rw [except_map_ok] at h
  obtain ⟨sym, _, h⟩ := h
  refine mkPositionRecord_some _ _ _ _ sym p ?_ ?_ h
  · intro cap hcap
    obtain ⟨t, ht⟩ := reSearch_some sideAnch _ cap hcap
    exact sideAnch_cap t cap ht
  · intro cap hcap
    obtain ⟨t, ht⟩ := reSearch_some pnlPosAnch _ cap hcap
    exact pnlPosAnch_dollar t cap ht

theorem parse_positions_raw_mem (text : List Char) (rs : List Position) (p : Position)
    (h : parse_positions_raw text = Except.ok rs) (hp : p ∈ rs) :
    ∃ b, parseBlock b = Except.ok (some p) := by
  rw [parse_positions_raw] at h
  by_cases ht : text = []
  · rw [if_pos ht] at h
    simp only [pure, Except.pure, Except.ok.injEq] at h
    rw [← h] at hp
    simp at hp
  · rw [if_neg ht] at h
    obtain ⟨b, _, hb⟩ := collectBlocks_mem _ rs p h hp
    exact ⟨b, hb⟩

/-- C3 counterexample: on the input `"Entry Time: 1:2:3 Unrealized P&L: $,x"`
the P&L pattern matches the text `$,`, whose numeric parse fails, and the
block is still kept: the returned Position has an empty side and no
pnl_value, contradicting the claim. -/
theorem claim_C3_counterexample :
    ∃ res, parse_positions "Entry Time: 1:2:3 Unrealized P&L: $,x".toList =
        Except.ok res ∧ ∃ p ∈ res, p.side = [] ∧ p.pnl_value = none :=
  ⟨[⟨[], [], [], none, "$,".toList, []⟩], by rfl,
    ⟨[], [], [], none, "$,".toList, []⟩, by decide, rfl, rfl⟩

/-- C3 amended: for every input, `parse_positions` returns at most as many
Positions as there are delimiter matches (the number of split parts minus
one), and every returned Position has a non-empty side or a non-empty
pnl_text (a matched P&L pattern) — its numeric pnl_value, however, may be
none when the matched text fails to parse. -/
theorem claim_C3_parser_blocks :
    ∀ (text : List Char) (res : List Position),
      parse_positions text = Except.ok res →
      res.length ≤ (splitPositions text).length - 1 ∧
      ∀ p ∈ res, p.side ≠ [] ∨ p.pnl_text ≠ [] := by
  intro text res h
  obtain ⟨rs, hraw, hres⟩ := parse_positions_shape text res h
  constructor
  · rw [hres, length_sortPositions]
    rw [parse_positions_raw] at hraw
    by_cases ht : text = []
    · rw [if_pos ht] at hraw
      simp only [pure, Except.pure, Except.ok.injEq] at hraw
      rw [← hraw]
      simp
    · rw [if_neg ht] at hraw
      have hlen := collectBlocks_length _ rs hraw
      have hdrop : ((splitPositions text).drop 1).length = (splitPositions text).length - 1 :=
        List.length_drop 1 (splitPositions text)
      omega
  · intro p hp
    rw [hres, mem_sortPositions] at hp
    obtain ⟨b, hb⟩ := parse_positions_raw_mem text rs p hraw hp
    exact parseBlock_valid b p hb

/-- Witness for C3 (amended) at a concrete input. -/
theorem claim_C3_parser_blocks_witness :
    ([⟨[], [], [], some 10, "+$10".toList, []⟩] : List Position).length ≤
      (splitPositions "Entry Time: 1:2:3 Unrealized P&L: +$10".toList).length - 1 ∧
    ∀ p ∈ ([⟨[], [], [], some 10, "+$10".toList, []⟩] : List Position),
      p.side ≠ [] ∨ p.pnl_text ≠ [] :=
  claim_C3_parser_blocks "Entry Time: 1:2:3 Unrealized P&L: +$10".toList
    [⟨[], [], [], some 10, "+$10".toList, []⟩] (by rfl)

/-- C5: the list returned by `parse_positions` has every position with a
defined pnl_value before every position with an undefined one, the defined
values non-increasing, and positions with equal sort keys keep their
original block order (the stable-sort guarantee, phrased as filter
invariance over each key class of the Python sort key). -/
theorem claim_C5_sorted :
    ∀ (text : List Char) (rs : List Position),
      parse_positions_raw text = Except.ok rs →
      parse_positions text = Except.ok (sortPositions rs) ∧
      List.Pairwise (fun a b =>
        (a.pnl_value = none → b.pnl_value = none) ∧
        ∀ x y : ℚ, a.pnl_value = some x → b.pnl_value = some y → y ≤ x)
        (sortPositions rs) ∧
      ∀ (k : Nat) (v : ℚ),
        (sortPositions rs).filter
            (fun p => posKeyRank p == k && decide (posKeyVal p = v)) =
          rs.filter (fun p => posKeyRank p == k && decide (posKeyVal p = v)) := by
  intro text rs hraw
  refine ⟨?_, ?_, ?_⟩
  · rw [parse_positions, hraw]
    rfl
  · refine List.Pairwise.imp ?_ (sorted_sortPositions rs)
    intro a b hab
    rw [posLe] at hab
    simp only [Bool.or_eq_true, Bool.and_eq_true, decide_eq_true_eq, beq_iff_eq] at hab
    constructor
    · intro han
      have hra : posKeyRank a = 1 := by rw [posKeyRank, if_pos han]
      have hrb : posKeyRank b ≤ 1 := by
        rw [posKeyRank]
        split <;> omega
      rcases hab with h | ⟨he, _⟩
      · omega
      · have hb1 : posKeyRank b = 1 := by omega
        rw [posKeyRank] at hb1
        by_cases hb : b.pnl_value = none
        · exact hb
        · rw [if_neg hb] at hb1
          omega
    · intro x y hax hby
      have hra : posKeyRank a = 0 := by
        rw [posKeyRank, if_neg (by simp [hax])]
      have hrb : posKeyRank b = 0 := by
        rw [posKeyRank, if_neg (by simp [hby])]
      rcases hab with h | ⟨_, hv⟩
      · omega
      · rw [posKeyVal, posKeyVal, hax, hby] at hv
        simp only [Option.getD_some] at hv
        exact neg_le_neg_iff.mp hv
  · intro k v
    refine filter_sortPositions _ ?_ rs
    intro x y hx hy
    simp only [Bool.and_eq_true, beq_iff_eq, decide_eq_true_eq] at hx hy
    rw [posLe]
    simp [hx.1, hy.1, hx.2, hy.2]

/-- Witness for C5 at a concrete two-position input (blocks arrive in the
order BTC then ETH; the sorted output puts ETH's larger P&L first). -/
theorem claim_C5_sorted_witness :
    parse_positions
      "Entry Time: 1:2:3 BTC Unrealized P&L: -$120.50 Entry Time: 4:5:6 ETH Unrealized P&L: +$43.20".toList =
      Except.ok (sortPositions
        [⟨"BTC".toList, [], [], some (-(mkRat 241 2)), "-$120.50".toList, []⟩,
         ⟨"ETH".toList, [], [], some (mkRat 216 5), "+$43.20".toList, []⟩]) :=
  (claim_C5_sorted _
    [⟨"BTC".toList, [], [], some (-(mkRat 241 2)), "-$120.50".toList, []⟩,
     ⟨"ETH".toList, [], [], some (mkRat 216 5), "+$43.20".toList, []⟩] (by rfl)).1

/-- C6: the entry-price pattern `Entry Price:` is case-sensitive but matched
against the upper-cased block, so the price is never extracted and the
price-range heuristic never fires: a block with entry price 75000 and no
explicit ticker yields the empty symbol, not "BTC" as the claim (and the
source's own comments) expect. -/
theorem claim_C6_price_heuristic_dead :
    parse_positions
      "Entry Time: 1:2:3\nSide: Long\nEntry Price: $75000\nUnrealized P&L: +$10".toList =
      Except.ok [⟨[], [], [], some 10, "+$10".toList, []⟩] := by rfl

/-- C7 counterexample: a parsed record holds no `quantity` key, even when the
block contains a `Quantity:` field. -/
theorem claim_C7_no_quantity_field :
    parse_positions "Entry Time: 1:2:3 Quantity: 5 Unrealized P&L: +$10".toList =
      Except.ok [⟨[], [], [], some 10, "+$10".toList, []⟩] ∧
    ∀ kv ∈ positionToDict (⟨[], [], [], some 10, "+$10".toList, []⟩ : Position),
      kv.1 ≠ "quantity" :=
  ⟨by rfl, by decide⟩

/-- C7 amended: every record produced by `parse_positions` carries exactly
the six keys symbol, side, leverage, pnl_value, pnl_text, entry_price, in
the source's dict order, and no quantity key: the `Quantity:` match is
computed by the source but its value is discarded. -/
theorem claim_C7_record_fields :
    ∀ (text : List Char) (res : List Position) (p : Position),
      parse_positions text = Except.ok res → p ∈ res →
      (positionToDict p).map Prod.fst =
        ["symbol", "side", "leverage", "pnl_value", "pnl_text", "entry_price"] ∧
      ∀ kv ∈ positionToDict p, kv.1 ≠ "quantity" := by
  intro text res p _ _
  refine ⟨rfl, ?_⟩
  intro kv hkv
  fin_cases hkv <;> simp

/-- Witness for C7 (amended) at a concrete input. -/
theorem claim_C7_record_fields_witness :
    (positionToDict (⟨[], [], [], some 5, "$5".toList, []⟩ : Position)).map Prod.fst =
      ["symbol", "side", "leverage", "pnl_value", "pnl_text", "entry_price"] ∧
    ∀ kv ∈ positionToDict (⟨[], [], [], some 5, "$5".toList, []⟩ : Position),
      kv.1 ≠ "quantity" :=
  claim_C7_record_fields "Entry Time: 1:2:3 Unrealized P&L: $5".toList
    [⟨[], [], [], some 5, "$5".toList, []⟩] ⟨[], [], [], some 5, "$5".toList, []⟩
    (by rfl) (by decide)

/-- C1: `extract_unrealized_pnl` drops the sign of the aggregate P&L.  On
"Unrealized P&L: -$120.50" pattern 1's `[^\n$]*` swallows the minus sign and
its capture holds only the digits, so the function returns +120.50, never
−120.50 (pattern 3, whose group could hold a sign, is shadowed by pattern 1
and its greedy prefix skips the sign anyway).  With the aggregate moving
from −120.50 to +43.20 the delta the loop computes is 43.20 − 120.50 =
−77.30, not +163.70.  This contradicts the docstring "Returns a float (can
be negative)". -/
theorem claim_C1_sign_dropped :
    extract_unrealized_pnl "Unrealized P&L: -$120.50".toList = some (mkRat 241 2) ∧
    extract_unrealized_pnl "Unrealized P&L: -$120.50".toList ≠ some (-(mkRat 241 2)) ∧
    extract_unrealized_pnl "Unrealized P&L: +$43.20".toList = some (mkRat 216 5) :=
  ⟨by decide, by decide, by decide⟩

/-- C8: `extract_unrealized_pnl` is total (it is a Lean function into
`Option ℚ`, so it never raises), returns `none` on the empty string, and
returns `none` exactly when each of the three pattern stages — search plus
clean-and-parse of the capture — yields nothing on the upper-cased text. -/
theorem claim_C8_extract_none :
    extract_unrealized_pnl [] = none ∧
    ∀ t : List Char, extract_unrealized_pnl t = none ↔
      (t = [] ∨
        (pnlStage (reSearch (pnlAfterLit "UNREALIZED".toList)) (t.map Char.toUpper) = none ∧
         pnlStage (reSearch (pnlAfterLit "UNREALISED".toList)) (t.map Char.toUpper) = none ∧
         pnlStage (reSearch pnlPat3) (t.map Char.toUpper) = none)) := by
  refine ⟨rfl, ?_⟩
  intro t
  by_cases ht : t = []
  · simp [extract_unrealized_pnl, ht]
  · rw [extract_unrealized_pnl, if_neg ht]
    simp only [ht, false_or]
    cases h1 : pnlStage (reSearch (pnlAfterLit "UNREALIZED".toList)) (t.map Char.toUpper) <;>
      cases h2 : pnlStage (reSearch (pnlAfterLit "UNREALISED".toList)) (t.map Char.toUpper) <;>
        cases h3 : pnlStage (reSearch pnlPat3) (t.map Char.toUpper) <;>
          simp [h1, h2, h3, Option.orElse]

/-- Witness for C8 at a concrete input with no matching pattern. -/
theorem claim_C8_extract_none_witness :
    extract_unrealized_pnl "no labels here".toList = none :=
  (claim_C8_extract_none.2 "no labels here".toList).mpr
    (Or.inr ⟨by decide, by decide, by decide⟩)

theorem visualActions_no_log (args : Args) (c : List Char) (vA : List MonAction)
    (h : visualActions args c = Except.ok vA) : vA.countP isLogAppend = 0 := by
  rw [visualActions] at h
  by_cases hv : args.visual = true
  · rw [if_pos hv] at h
    by_cases hr : args.richAvail = true
    · rw [if_pos hr] at h
      rw [except_bind_ok] at h
      obtain ⟨ps, _, h⟩ := h
      simp only [pure, Except.pure, Except.ok.injEq] at h
      rw [← h]
      by_cases hps : ps = [] <;> simp [hps, isLogAppend]
    · rw [if_neg hr] at h
      simp only [pure, Except.pure, Except.ok.injEq] at h
      rw [← h]
      simp [isLogAppend]
  · rw [if_neg hv] at h
    simp only [pure, Except.pure, Except.ok.injEq] at h
    rw [← h]
    simp

theorem popupActions_no_log (args : Args) (c : List Char) (pA : List MonAction)
    (h : popupActions args c = Except.ok pA) : pA.countP isLogAppend = 0 := by
  rw [popupActions] at h
  by_cases hv : args.popup = true
  · rw [if_pos hv] at h
    by_cases hr : args.tkAvail = true
    · rw [if_pos hr] at h
      rw [except_bind_ok] at h
      obtain ⟨ps, _, h⟩ := h
      simp only [pure, Except.pure, Except.ok.injEq] at h
      rw [← h]
      simp [isLogAppend]
    · rw [if_neg hr] at h
      simp only [pure, Except.pure, Except.ok.injEq] at h
      rw [← h]
      simp [isLogAppend]
  · rw [if_neg hv] at h
    simp only [pure, Except.pure, Except.ok.injEq] at h
    rw [← h]
    simp

theorem htmlActions_no_log (c : List Char) : (htmlActions c).countP isLogAppend = 0 := by
  rw [htmlActions]
  split <;> simp [isLogAppend]

theorem notifyActions_no_log (args : Args) (delta : Option ℚ) :
    (notifyActions args delta).countP isLogAppend = 0 := by
  rw [notifyActions]
  by_cases hv : args.notify = true
  · rw [if_pos hv]
    by_cases hr : args.plyerAvail = true
    · rw [if_pos hr]
      simp [isLogAppend]
    · rw [if_neg hr]
      simp [isLogAppend]
  · rw [if_neg hv]
    simp

theorem soundActions_no_log (args : Args) :
    (soundActions args).countP isLogAppend = 0 := by
  rw [soundActions]
  by_cases hv : args.sound = true
  · rw [if_pos hv]
    simp [isLogAppend]
  · rw [if_neg hv]
    simp

theorem visualActions_ok (args : Args) (c : List Char) (ps : List Position)
    (h : parse_positions c = Except.ok ps) :
    visualActions args c =
      Except.ok (if args.visual then
        (if args.richAvail then (if ps = [] then [] else [MonAction.renderTable ps])
         else [MonAction.printVisualHint])
        else []) := by
  rw [visualActions]
  by_cases hv : args.visual = true
  · rw [if_pos hv, if_pos hv]
    by_cases hr : args.richAvail = true
    · rw [if_pos hr, if_pos hr, h]
      rfl
    · rw [if_neg hr, if_neg hr]
      rfl
  · rw [if_neg hv, if_neg hv]
    rfl

theorem popupActions_ok (args : Args) (c : List Char) (ps : List Position)
    (h : parse_positions c = Except.ok ps) :
    popupActions args c =
      Except.ok (if args.popup then
        (if args.tkAvail then [MonAction.popupAlert ps]
         else [MonAction.printPopupUnavailable])
        else []) := by
  rw [popupActions]
  by_cases hv : args.popup = true
  · rw [if_pos hv, if_pos hv]
    by_cases hr : args.tkAvail = true
    · rw [if_pos hr, if_pos hr, h]
      rfl
    · rw [if_neg hr, if_neg hr]
      rfl
  · rw [if_neg hv, if_neg hv]
    rfl

/-- C2 counterexample: initialization appends no line to the log file; the
source prints the initial payload and saves a snapshot, but the only
`open(LOG_PATH, "a")` sits in the change branch of the loop. -/
theorem claim_C2_no_init_log :
    (initStep "T0".toList).2.countP isLogAppend = 0 ∧
    ¬ (initStep "T0".toList).2.countP isLogAppend = 1 :=
  ⟨by decide, by decide⟩

/-- C2 amended: no log line is appended on initialization (the initial
payload — with active_positions the trimmed text — is printed and a
snapshot taken instead); in Steady state exactly one log line is appended
per detected change and none on a heartbeat cycle. -/
theorem claim_C2_log_lines :
    (∀ t : List Char, (initStep t).2.countP isLogAppend = 0 ∧
        MonAction.printPayload ⟨pyStrip t⟩ ∈ (initStep t).2) ∧
    (∀ (args : Args) (st : MonState) (lt text : List Char)
        (r : MonState × Option ChangeEvent × List MonAction),
      st.last_text = some lt → pollStep args st text = Except.ok r →
      r.2.2.countP isLogAppend = if pyStrip text = pyStrip lt then 0 else 1) := by
  constructor
  · intro t
    rw [initStep]
    constructor
    · by_cases h : pyStrip t = [] <;>
        simp [h, List.countP_append, List.countP_cons, isLogAppend]
    · by_cases h : pyStrip t = [] <;> simp [h]
  · intro args st lt text r hlt h
    rw [pollStep] at h
    rw [hlt] at h
    dsimp only at h
    by_cases hc : pyStrip text = pyStrip lt
    · rw [if_pos hc] at h
      simp only [pure, Except.pure, Except.ok.injEq] at h
      rw [← h, if_pos hc]
      simp [isLogAppend]
    · rw [if_neg hc] at h
      rw [except_bind_ok] at h
      obtain ⟨vA, hv, h⟩ := h
      rw [except_bind_ok] at h
      obtain ⟨pA, hp, h⟩ := h
      simp only [pure, Except.pure, Except.ok.injEq] at h
      rw [← h, if_neg hc]
      simp only [List.countP_append, List.countP_cons, List.countP_nil,
        visualActions_no_log args _ vA hv, popupActions_no_log args _ pA hp,
        htmlActions_no_log, notifyActions_no_log, soundActions_no_log]
      simp [isLogAppend]

/-- C4: one poll step in Steady state.  If the trimmed current text equals
the trimmed stored text, no ChangeEvent is produced and the stored state is
unchanged; otherwise exactly one ChangeEvent is produced, its delta is
current_pnl − previous_pnl when both are defined and undefined otherwise,
and the new state stores the trimmed current text and the newly extracted
aggregate P&L when one exists, else the previous stored value.  (The
`parse_positions` hypothesis discharges the unguarded visual/popup parse
calls of the source; parsing never fails on real upper-cased blocks.) -/
theorem claim_C4_change_detection :
    ∀ (args : Args) (st : MonState) (lt text : List Char) (ps : List Position),
      st.last_text = some lt →
      parse_positions (pyStrip text) = Except.ok ps →
      ∃ r, pollStep args st text = Except.ok r ∧
        r.1 = (if pyStrip text = pyStrip lt then st else
          ⟨some (pyStrip text),
            match extract_unrealized_pnl (pyStrip text) with
            | some v => some v
            | none => st.last_unrealized⟩) ∧
        r.2.1 = (if pyStrip text = pyStrip lt then none else
          some ⟨pyStrip lt, pyStrip text, st.last_unrealized,
            extract_unrealized_pnl (pyStrip text),
            match st.last_unrealized, extract_unrealized_pnl (pyStrip text) with
            | some p, some c => some (c - p)
            | _, _ => none⟩) := by
  intro args st lt text ps hlt hparse
  by_cases hc : pyStrip text = pyStrip lt
  · refine ⟨(st, none, [MonAction.printNoChange]), ?_, by rw [if_pos hc], by rw [if_pos hc]⟩
    rw [pollStep, hlt]
    dsimp only
    rw [if_pos hc]
    rfl
  · refine ⟨(⟨some (pyStrip text),
        match extract_unrealized_pnl (pyStrip text) with
        | some v => some v
        | none => st.last_unrealized⟩,
      some ⟨pyStrip lt, pyStrip text, st.last_unrealized,
        extract_unrealized_pnl (pyStrip text),
        match st.last_unrealized, extract_unrealized_pnl (pyStrip text) with
        | some p, some c => some (c - p)
        | _, _ => none⟩,
      [MonAction.printUpdate (match st.last_unrealized,
          extract_unrealized_pnl (pyStrip text) with
        | some p, some c => some (c - p)
        | _, _ => none), MonAction.printPayload ⟨pyStrip text⟩] ++
        (if args.visual then
          (if args.richAvail then (if ps = [] then [] else [MonAction.renderTable ps])
           else [MonAction.printVisualHint])
          else []) ++
        [MonAction.logAppend ⟨pyStrip text⟩, MonAction.snapshot] ++
        htmlActions (pyStrip text) ++
        notifyActions args (match st.last_unrealized,
          extract_unrealized_pnl (pyStrip text) with
        | some p, some c => some (c - p)
        | _, _ => none) ++ soundActions args ++
        (if args.popup then
          (if args.tkAvail then [MonAction.popupAlert ps]
           else [MonAction.printPopupUnavailable])
          else [])), ?_, by rw [if_neg hc], by rw [if_neg hc]⟩
    rw [pollStep, hlt]
    dsimp only
    rw [if_neg hc]
    rw [visualActions_ok args _ ps hparse, popupActions_ok args _ ps hparse]
    rfl

/-- C9: the Section Locator is total (as a Lean function it cannot raise)
and degrades as specified: when the DOM evaluation throws it returns the
whole page's visible text with no container reference, and when the
body-text fallback throws too it returns empty text with no reference. -/
theorem claim_C9_locator_degrades :
    (∀ (p : PageSnapshot) (b : List Char),
      p.evalResult = Except.error () → p.bodyText = Except.ok b →
      find_active_positions_container p = (b, none)) ∧
    (∀ p : PageSnapshot,
      p.evalResult = Except.error () → p.bodyText = Except.error () →
      find_active_positions_container p = ([], none)) := by
  constructor
  · intro p b he hb
    simp only [find_active_positions_container, he, hb]
  · intro p he hb
    simp only [find_active_positions_container, he, hb]

/-- Witness for C9 on concrete degraded pages. -/
theorem claim_C9_locator_degrades_witness :
    find_active_positions_container ⟨Except.error (), Except.ok "BODY".toList⟩ =
      ("BODY".toList, none) ∧
    find_active_positions_container ⟨Except.error (), Except.error ()⟩ = ([], none) :=
  ⟨claim_C9_locator_degrades.1 ⟨Except.error (), Except.ok "BODY".toList⟩
      "BODY".toList rfl rfl,
    claim_C9_locator_degrades.2 ⟨Except.error (), Except.error ()⟩ rfl rfl⟩

/-- Witness for C2 (amended) at a concrete changed poll. -/
theorem claim_C2_log_lines_witness :
    ([MonAction.printUpdate none, MonAction.printPayload ⟨"B".toList⟩,
        MonAction.logAppend ⟨"B".toList⟩, MonAction.snapshot,
        MonAction.writeHtml []] : List MonAction).countP isLogAppend =
      if pyStrip "B".toList = pyStrip "A".toList then 0 else 1 :=
  claim_C2_log_lines.2 ⟨false, false, false, false, false, false, false⟩
    ⟨some "A".toList, none⟩ "A".toList "B".toList
    (⟨some "B".toList, none⟩,
      some ⟨"A".toList, "B".toList, none, none, none⟩,
      [MonAction.printUpdate none, MonAction.printPayload ⟨"B".toList⟩,
        MonAction.logAppend ⟨"B".toList⟩, MonAction.snapshot, MonAction.writeHtml []])
    rfl (by rfl)

/-- Witness for C4 at a concrete changed poll. -/
theorem claim_C4_change_detection_witness :
    ∃ r, pollStep ⟨false, false, false, false, false, false, false⟩
        ⟨some "A".toList, none⟩ "B".toList = Except.ok r ∧
      r.1 = (if pyStrip "B".toList = pyStrip "A".toList then
          (⟨some "A".toList, none⟩ : MonState) else
        ⟨some (pyStrip "B".toList),
          match extract_unrealized_pnl (pyStrip "B".toList) with
          | some v => some v
          | none => (none : Option ℚ)⟩) ∧
      r.2.1 = (if pyStrip "B".toList = pyStrip "A".toList then none else
        some ⟨pyStrip "A".toList, pyStrip "B".toList, none,
          extract_unrealized_pnl (pyStrip "B".toList),
          match (none : Option ℚ), extract_unrealized_pnl (pyStrip "B".toList) with
          | some p, some c => some (c - p)
          | _, _ => none⟩) :=
  claim_C4_change_detection ⟨false, false, false, false, false, false, false⟩
    ⟨some "A".toList, none⟩ "A".toList "B".toList [] rfl (by rfl)
